import Mathlib

/-!
Shallow embedding of `src/components/consensus/highway_testing.rs`: the
deterministic discrete-event network simulation harness for consensus testing.

Modelling conventions, matching the Rust source:
* `NodeId(u64)` and `Instant(u64)` are newtypes over `u64` used only through
  their total order in the core (the only arithmetic, `instant.0 + 1`, occurs
  in the test-module strategy `SmallDelay`); they are modelled as `Nat`.
* The payload type `M` (with `Ord`) is a type parameter with `LinearOrder`.
* `trait ConsensusInstance` (a `&mut self` method) is modelled by an explicit
  state type `σ` together with a step function
  `handle : σ → NodeId → M → Bool → σ × List (TargetedMessage M)`.
* `trait Strategy<DeliverySchedule>` with `fn map<R: Rng>(&self, rng, i)` is
  modelled by a function `strat : ρ → DeliverySchedule → ρ × DeliverySchedule`
  threading the RNG state `ρ` explicitly.
* `BinaryHeap<QueueEntry<M>>` is a max-heap: `pop` returns a maximal element
  under the derived `Ord`.  It is modelled as a `List (QueueEntry M)` with
  `push = cons` and a `popMax` that extracts a maximal element under the
  source's comparator `qeCmp`; the heap is deterministic, and `popMax` fixes
  one deterministic choice among `Ord`-equal elements.
* `BTreeMap<NodeId, Node>` is modelled as an association list kept sorted by
  key via `btreeInsert` (insert replaces an existing key, as in Rust);
  `keys()` iterates in ascending key order.
-/

abbrev NodeId := Nat

abbrev Instant := Nat

/-- Enum defining recipients of the message (`enum Target`). -/
inductive Target where
  | SingleNode (id : NodeId) : Target
  | All : Target
deriving DecidableEq

/-- `struct Message<M> { sender: NodeId, payload: M }`. -/
structure Message (M : Type) where
  sender : NodeId
  payload : M
deriving DecidableEq

/-- `struct TargetedMessage<M> { message: Message<M>, target: Target }`. -/
structure TargetedMessage (M : Type) where
  message : Message M
  target : Target
deriving DecidableEq

/-- `struct QueueEntry<M> { delivery_time, recipient, message }`. -/
structure QueueEntry (M : Type) where
  delivery_time : Instant
  recipient : NodeId
  message : Message M
deriving DecidableEq

/-- `enum DeliverySchedule { AtInstant(Instant), Drop }`. -/
inductive DeliverySchedule where
  | AtInstant (instant : Instant) : DeliverySchedule
  | Drop : DeliverySchedule
deriving DecidableEq

/-- `impl From<Instant> for DeliverySchedule`: `DeliverySchedule::at(instant)`. -/
def DeliverySchedule.fromInstant (instant : Instant) : DeliverySchedule :=
  DeliverySchedule.AtInstant instant

/-- `enum TestRunError { MissingRecipient(NodeId), NoMessages }`. -/
inductive TestRunError where
  | MissingRecipient (id : NodeId) : TestRunError
  | NoMessages : TestRunError
deriving DecidableEq

/-- Rust `Ordering::then` (`self.cmp(..).then_with(|| ..)`). -/
def ordThen : Ordering → Ordering → Ordering
  | Ordering.eq, o => o
  | o, _ => o

/-- `Ord::cmp` on a linearly ordered component (Rust derived `Ord` on `u64`
and on the payload type). -/
def cmpv {α : Type} [LinearOrder α] (x y : α) : Ordering :=
  if x < y then Ordering.lt else if x = y then Ordering.eq else Ordering.gt

variable {M : Type} [LinearOrder M]

/-- `impl Ord for QueueEntry`: by `delivery_time`, then `recipient`, then
`message.payload` (the sender is ignored by the comparator). -/
def qeCmp (a b : QueueEntry M) : Ordering :=
  ordThen (cmpv a.delivery_time b.delivery_time)
    (ordThen (cmpv a.recipient b.recipient) (cmpv a.message.payload b.message.payload))

/-- The key the comparator `qeCmp` orders by, as a lexicographic triple;
used to state ordering properties. -/
def keyOf (a : QueueEntry M) : Nat ×ₗ (Nat ×ₗ M) :=
  toLex (a.delivery_time, toLex (a.recipient, a.message.payload))

/-- `Queue::push` (`BinaryHeap::push`): the heap is modelled as a list of its
elements; `push` adds the element. -/
def queuePush (e : QueueEntry M) (q : List (QueueEntry M)) : List (QueueEntry M) :=
  e :: q

/-- `Queue::pop` (`BinaryHeap::pop`): removes and returns a MAXIMAL element
under `impl Ord for QueueEntry` (Rust's `BinaryHeap` is a max-heap), or
`None` when empty.  Among `Ord`-equal elements one deterministic choice is
fixed, as the concrete heap is deterministic. -/
def popMax : List (QueueEntry M) → Option (QueueEntry M × List (QueueEntry M))
  | [] => none
  | e :: rest =>
    match popMax rest with
    | none => some (e, [])
    | some (m, rest1) =>
      if qeCmp e m = Ordering.lt then some (m, e :: rest1) else some (e, rest)

/-- `BTreeMap::get`. -/
def mapGet {α : Type} : List (NodeId × α) → NodeId → Option α
  | [], _ => none
  | (k, v) :: rest, k2 => if k2 = k then some v else mapGet rest k2

/-- Writing through `BTreeMap::get_mut`: replace the value at an existing key. -/
def mapSet {α : Type} : List (NodeId × α) → NodeId → α → List (NodeId × α)
  | [], _, _ => []
  | (k, v) :: rest, k2, v2 => if k2 = k then (k2, v2) :: rest else (k, v) :: mapSet rest k2 v2

/-- `BTreeMap::keys`, in ascending key order. -/
def mapKeys {α : Type} (m : List (NodeId × α)) : List NodeId :=
  m.map Prod.fst

/-- `BTreeMap::insert`: sorted insertion replacing an existing key. -/
def btreeInsert {α : Type} (k : NodeId) (v : α) : List (NodeId × α) → List (NodeId × α)
  | [] => [(k, v)]
  | (k2, v2) :: rest =>
    if k < k2 then (k, v) :: (k2, v2) :: rest
    else if k = k2 then (k, v) :: rest
    else (k2, v2) :: btreeInsert k v rest

/-- `collect::<BTreeMap<_, _>>()` from an iterator of pairs: successive
inserts, later pairs overwriting earlier ones with the same key. -/
def btreeFromList {α : Type} (l : List (NodeId × α)) : List (NodeId × α) :=
  l.foldl (fun m p => btreeInsert p.1 p.2 m) []

/-- `struct Node<C, D>`: a node in the test network. -/
structure Node (C M σ : Type) where
  id : NodeId
  is_faulty : Bool
  finalized_values : List C
  messages_received : List (Message M)
  messages_produced : List (Message M)
  consensus : σ
deriving DecidableEq

/-- `Node::new`. -/
def Node.new {C M σ : Type} (id : NodeId) (is_faulty : Bool) (consensus : σ) : Node C M σ :=
  { id := id, is_faulty := is_faulty, finalized_values := [],
    messages_received := [], messages_produced := [], consensus := consensus }

/-- `Node::handle_message`: appends `(sender, m)` to `messages_received`,
forwards to the consensus instance with the node's `is_faulty` flag, appends
the message part of each produced `TargetedMessage` to `messages_produced`,
and returns the produced list unchanged. -/
def Node.handle_message {C M σ : Type}
    (handle : σ → NodeId → M → Bool → σ × List (TargetedMessage M))
    (n : Node C M σ) (sender : NodeId) (m : M) :
    Node C M σ × List (TargetedMessage M) :=
  let received := n.messages_received ++ [Message.mk sender m]
  match handle n.consensus sender m n.is_faulty with
  | (c1, outband) =>
    ({ n with
        messages_received := received,
        messages_produced := n.messages_produced ++ outband.map (fun tm => tm.message),
        consensus := c1 },
      outband)

/-- `struct TestHarness<M, C, D, DS, R>`.  The consensus step function and the
delivery-time strategy are behaviours passed to the operations; the RNG state
`ρ` is stored, as in the source. -/
structure TestHarness (M C σ ρ : Type) where
  nodes_map : List (NodeId × Node C M σ)
  msg_queue : List (QueueEntry M)
  start_time : Nat
  consensus_values : List C
  rand : ρ
deriving DecidableEq

/-- `TestHarness::new`: collects the nodes into the `BTreeMap` keyed by
`node.id` (later duplicates overwrite earlier ones), with an empty queue. -/
def TestHarness.new {C σ ρ : Type} (nodes : List (Node C M σ)) (start_time : Nat)
    (consensus_values : List C) (rand : ρ) : TestHarness M C σ ρ :=
  { nodes_map := btreeFromList (nodes.map fun n => (n.id, n)),
    msg_queue := [],
    start_time := start_time,
    consensus_values := consensus_values,
    rand := rand }

/-- `TestHarness::schedule_message`. -/
def schedule_message {C σ ρ : Type} (th : TestHarness M C σ ρ)
    (delivery_time : Instant) (recipient : NodeId) (message : Message M) :
    TestHarness M C σ ρ :=
  { th with msg_queue := queuePush (QueueEntry.mk delivery_time recipient message) th.msg_queue }

/-- `TestHarness::send_messages`: for each recipient, apply the strategy to
`base_delivery_time.into()`; on `AtInstant(dt)` schedule the message, on
`Drop` discard it.  The RNG is consumed by every application. -/
def sendMessages {C σ ρ : Type} (strat : ρ → DeliverySchedule → ρ × DeliverySchedule)
    (th : TestHarness M C σ ρ) (recipients : List NodeId) (message : Message M)
    (base_delivery_time : Instant) : TestHarness M C σ ρ :=
  recipients.foldl
    (fun acc node_id =>
      match strat acc.rand (DeliverySchedule.fromInstant base_delivery_time) with
      | (r1, DeliverySchedule.Drop) => { acc with rand := r1 }
      | (r1, DeliverySchedule.AtInstant dt) =>
        schedule_message { acc with rand := r1 } dt node_id message)
    th

/-- Resolution of a `Target` against the current node table inside `crank`:
`All` yields the full current key set, `SingleNode(id)` the singleton. -/
def resolveTarget {C σ : Type} (m : List (NodeId × Node C M σ)) : Target → List NodeId
  | Target.All => mapKeys m
  | Target.SingleNode id => [id]

/-- `TestHarness::crank`: pop a queue entry (else `NoMessages`), look up the
recipient (else `MissingRecipient`), dispatch, then resolve each produced
target and reschedule through the strategy.  Returns the `Result` together
with the post-state (on error, the pop has already happened). -/
def crank {C σ ρ : Type} (handle : σ → NodeId → M → Bool → σ × List (TargetedMessage M))
    (strat : ρ → DeliverySchedule → ρ × DeliverySchedule)
    (th : TestHarness M C σ ρ) :
    Except TestRunError Unit × TestHarness M C σ ρ :=
  match popMax th.msg_queue with
  | none => (Except.error TestRunError.NoMessages, th)
  | some (e, q1) =>
    let th1 := { th with msg_queue := q1 }
    match mapGet th1.nodes_map e.recipient with
    | none => (Except.error (TestRunError.MissingRecipient e.recipient), th1)
    | some node =>
      match Node.handle_message handle node e.message.sender e.message.payload with
      | (node1, outband) =>
        let th2 := { th1 with nodes_map := mapSet th1.nodes_map e.recipient node1 }
        let th3 := outband.foldl
          (fun acc tm =>
            sendMessages strat acc (resolveTarget acc.nodes_map tm.target)
              tm.message e.delivery_time)
          th2
        (Except.ok (), th3)

/-- Iterate `crank`, keeping only the state. -/
def crankSteps {C σ ρ : Type} (handle : σ → NodeId → M → Bool → σ × List (TargetedMessage M))
    (strat : ρ → DeliverySchedule → ρ × DeliverySchedule) :
    Nat → TestHarness M C σ ρ → TestHarness M C σ ρ
  | 0, th => th
  | n + 1, th => crankSteps handle strat n (crank handle strat th).2

/-- The sequence of `(recipient, message)` deliveries over `n` cranks: a
delivery is recorded whenever a crank succeeds, i.e. the popped entry was
dispatched to its recipient. -/
def deliveries {C σ ρ : Type} (handle : σ → NodeId → M → Bool → σ × List (TargetedMessage M))
    (strat : ρ → DeliverySchedule → ρ × DeliverySchedule) :
    Nat → TestHarness M C σ ρ → List (NodeId × Message M)
  | 0, _ => []
  | n + 1, th =>
    match crank handle strat th with
    | (Except.ok _, th1) =>
      match popMax th.msg_queue with
      | some (e, _) => (e.recipient, e.message) :: deliveries handle strat n th1
      | none => deliveries handle strat n th1
    | (Except.error _, th1) => deliveries handle strat n th1

/-- The test module's `NoOpConsensus`: always returns no output. -/
def noOpHandle : Unit → NodeId → Nat → Bool → Unit × List (TargetedMessage Nat) :=
  fun s _ _ _ => (s, [])

/-- The test module's `SmallDelay` strategy: never drops, adds one tick. -/
def smallDelay {ρ : Type} : ρ → DeliverySchedule → ρ × DeliverySchedule :=
  fun r s =>
    match s with
    | DeliverySchedule.Drop => (r, DeliverySchedule.Drop)
    | DeliverySchedule.AtInstant instant => (r, DeliverySchedule.AtInstant (instant + 1))

theorem cmpv_lt_iff {α : Type} [LinearOrder α] (x y : α) : cmpv x y = Ordering.lt ↔ x < y := by
  unfold cmpv
  split_ifs with h1 h2
  · simp [h1]
  · simp [h1]
  · simp [h1]

theorem cmpv_eq_iff {α : Type} [LinearOrder α] (x y : α) : cmpv x y = Ordering.eq ↔ x = y := by
  unfold cmpv
  split_ifs with h1 h2
  · simp [ne_of_lt h1]
  · simp [h2]
  · simp [h2]

theorem ordThen_lt (o p : Ordering) :
    ordThen o p = Ordering.lt ↔ o = Ordering.lt ∨ (o = Ordering.eq ∧ p = Ordering.lt) := by
  cases o <;> simp [ordThen]

theorem qeCmp_lt_iff (a b : QueueEntry M) : qeCmp a b = Ordering.lt ↔ keyOf a < keyOf b := by
  unfold qeCmp keyOf
  rw [Prod.Lex.lt_iff, Prod.Lex.lt_iff, ordThen_lt, ordThen_lt, cmpv_lt_iff, cmpv_eq_iff,
    cmpv_lt_iff, cmpv_eq_iff, cmpv_lt_iff]

theorem popMax_cons (a : QueueEntry M) (rest : List (QueueEntry M)) :
    popMax (a :: rest) =
      match popMax rest with
      | none => some (a, [])
      | some (m, rest1) =>
        if qeCmp a m = Ordering.lt then some (m, a :: rest1) else some (a, rest) := rfl

theorem popMax_eq_none {q : List (QueueEntry M)} : popMax q = none ↔ q = [] := by
  cases q with
  | nil => simp [popMax]
  | cons a rest =>
    rw [popMax_cons]
    rcases hr : popMax rest with _ | ⟨m, rest1⟩
    · simp
    · simp only []
      split <;> simp

theorem popMax_perm {q : List (QueueEntry M)} {e : QueueEntry M} {q1 : List (QueueEntry M)}
    (h : popMax q = some (e, q1)) : (e :: q1).Perm q := by
  induction q generalizing e q1 with
  | nil => simp [popMax] at h
  | cons a rest ih =>
    rw [popMax_cons] at h
    rcases hr : popMax rest with _ | ⟨m, rest1⟩
    · rw [hr] at h
      simp only [] at h
      injection h with h1
      injection h1 with he hq
      subst he
      subst hq
      have hnil : rest = [] := popMax_eq_none.mp hr
      subst hnil
      exact List.Perm.refl _
    · rw [hr] at h
      simp only [] at h
      by_cases hc : qeCmp a m = Ordering.lt
      · rw [if_pos hc] at h
        injection h with h1
        injection h1 with he hq
        subst he
        subst hq
        have hperm := ih hr
        exact (List.Perm.swap _ _ _).trans (hperm.cons _)
      · rw [if_neg hc] at h
        injection h with h1
        injection h1 with he hq
        subst he
        subst hq
        exact List.Perm.refl _

theorem popMax_le {q : List (QueueEntry M)} {e : QueueEntry M} {q1 : List (QueueEntry M)}
    (h : popMax q = some (e, q1)) : ∀ x ∈ q1, keyOf x ≤ keyOf e := by
  induction q generalizing e q1 with
  | nil => simp [popMax] at h
  | cons a rest ih =>
    rw [popMax_cons] at h
    rcases hr : popMax rest with _ | ⟨m, rest1⟩
    · rw [hr] at h
      simp only [] at h
      injection h with h1
      injection h1 with he hq
      subst he
      subst hq
      intro x hx
      simp at hx
    · rw [hr] at h
      simp only [] at h
      by_cases hc : qeCmp a m = Ordering.lt
      · rw [if_pos hc] at h
        injection h with h1
        injection h1 with he hq
        subst he
        subst hq
        intro x hx
        rcases List.mem_cons.mp hx with rfl | hx2
        · exact le_of_lt ((qeCmp_lt_iff _ _).mp hc)
        · exact ih hr x hx2
      · rw [if_neg hc] at h
        injection h with h1
        injection h1 with he hq
        subst he
        subst hq
        intro x hx
        have hma : keyOf m ≤ keyOf a := not_lt.mp (fun hlt => hc ((qeCmp_lt_iff _ _).mpr hlt))
        have hx1 : x = m ∨ x ∈ rest1 := by
          simpa using (popMax_perm hr).mem_iff.mpr hx
        rcases hx1 with rfl | hx2
        · exact hma
        · exact le_trans (ih hr x hx2) hma

theorem keyOf_fst_le {x e : QueueEntry M} (h : keyOf x ≤ keyOf e) :
    x.delivery_time ≤ e.delivery_time :=
  Prod.Lex.monotone_fst _ _ h

theorem mapGet_mapSet_some {α : Type} {m : List (NodeId × α)} {k : NodeId} {v0 v : α}
    (h : mapGet m k = some v0) : mapGet (mapSet m k v) k = some v := by
  induction m with
  | nil => simp [mapGet] at h
  | cons p rest ih =>
    obtain ⟨k1, v1⟩ := p
    by_cases hk : k = k1
    · simp [mapGet, mapSet, hk]
    · simp only [mapGet, mapSet, if_neg hk] at h ⊢
      exact ih h

theorem mapGet_mapSet_ne {α : Type} {m : List (NodeId × α)} {k k2 : NodeId} {v : α}
    (h : k2 ≠ k) : mapGet (mapSet m k v) k2 = mapGet m k2 := by
  induction m with
  | nil => simp [mapGet, mapSet]
  | cons p rest ih =>
    obtain ⟨k1, v1⟩ := p
    by_cases hk : k = k1
    · subst hk
      simp [mapGet, mapSet, if_neg h]
    · simp only [mapSet, if_neg hk, mapGet]
      by_cases hk2 : k2 = k1
      · simp [hk2]
      · simp [if_neg hk2, ih]

theorem mapKeys_mapSet {α : Type} (m : List (NodeId × α)) (k : NodeId) (v : α) :
    mapKeys (mapSet m k v) = mapKeys m := by
  induction m with
  | nil => simp [mapSet]
  | cons p rest ih =>
    obtain ⟨k1, v1⟩ := p
    by_cases hk : k = k1
    · simp [mapSet, mapKeys, hk]
    · simp only [mapSet, if_neg hk, mapKeys, List.map_cons]
      simpa [mapKeys] using ih

theorem mapGet_isSome_iff {α : Type} (m : List (NodeId × α)) (k : NodeId) :
    (mapGet m k).isSome ↔ k ∈ mapKeys m := by
  induction m with
  | nil => simp [mapGet, mapKeys]
  | cons p rest ih =>
    obtain ⟨k1, v1⟩ := p
    by_cases hk : k = k1
    · simp [mapGet, mapKeys, hk]
    · simp [mapGet, mapKeys, hk, ih]

theorem mapGet_btreeInsert {α : Type} (m : List (NodeId × α)) (k k2 : NodeId) (v : α) :
    mapGet (btreeInsert k v m) k2 = if k2 = k then some v else mapGet m k2 := by
  induction m with
  | nil => simp [btreeInsert, mapGet]
  | cons p rest ih =>
    obtain ⟨k1, v1⟩ := p
    by_cases hlt : k < k1
    · simp only [btreeInsert, if_pos hlt]
      by_cases hk2 : k2 = k
      · simp [mapGet, hk2]
      · simp [mapGet, hk2]
    · by_cases heq : k = k1
      · subst heq
        simp only [btreeInsert, if_neg hlt, if_pos rfl]
        by_cases hk2 : k2 = k
        · simp [mapGet, hk2]
        · simp [mapGet, hk2]
      · simp only [btreeInsert, if_neg hlt, if_neg heq, mapGet]
        by_cases hk2 : k2 = k1
        · have hne : ¬ (k2 = k) := fun h2 => heq (h2.symm.trans hk2)
          rw [if_pos hk2, if_neg hne, if_pos hk2]
        · simp [if_neg hk2, ih]

theorem mem_btreeInsert {α : Type} {m : List (NodeId × α)} {k : NodeId} {v : α}
    {p : NodeId × α} (h : p ∈ btreeInsert k v m) : p = (k, v) ∨ p ∈ m := by
  induction m with
  | nil => simpa [btreeInsert] using h
  | cons q rest ih =>
    obtain ⟨k1, v1⟩ := q
    by_cases hlt : k < k1
    · simp only [btreeInsert, if_pos hlt] at h
      rcases List.mem_cons.mp h with rfl | h2
      · exact Or.inl rfl
      · exact Or.inr h2
    · by_cases heq : k = k1
      · simp only [btreeInsert, if_neg hlt, if_pos heq] at h
        rcases List.mem_cons.mp h with rfl | h2
        · exact Or.inl rfl
        · exact Or.inr (List.mem_cons_of_mem _ h2)
      · simp only [btreeInsert, if_neg hlt, if_neg heq] at h
        rcases List.mem_cons.mp h with rfl | h2
        · exact Or.inr (List.mem_cons_self _ _)
        · rcases ih h2 with h3 | h3
          · exact Or.inl h3
          · exact Or.inr (List.mem_cons_of_mem _ h3)

theorem pairwise_btreeInsert {α : Type} {m : List (NodeId × α)} {k : NodeId} {v : α}
    (h : m.Pairwise (fun p q => p.1 < q.1)) :
    (btreeInsert k v m).Pairwise (fun p q => p.1 < q.1) := by
  induction m with
  | nil => simp [btreeInsert]
  | cons q rest ih =>
    obtain ⟨k1, v1⟩ := q
    obtain ⟨hhead, htail⟩ := List.pairwise_cons.mp h
    by_cases hlt : k < k1
    · simp only [btreeInsert, if_pos hlt]
      refine List.pairwise_cons.mpr ⟨?_, h⟩
      intro p hp
      rcases List.mem_cons.mp hp with rfl | hp2
      · exact hlt
      · exact lt_trans hlt (hhead p hp2)
    · by_cases heq : k = k1
      · subst heq
        simp only [btreeInsert, if_neg hlt, if_pos rfl]
        exact List.pairwise_cons.mpr ⟨hhead, htail⟩
      · have hgt : k1 < k := lt_of_le_of_ne (not_lt.mp hlt) (fun h2 => heq h2.symm)
        simp only [btreeInsert, if_neg hlt, if_neg heq]
        refine List.pairwise_cons.mpr ⟨?_, ih htail⟩
        intro p hp
        rcases mem_btreeInsert hp with rfl | hp2
        · exact hgt
        · exact hhead p hp2

theorem pairwise_btreeFromList {α : Type} (l : List (NodeId × α)) :
    (btreeFromList l).Pairwise (fun p q => p.1 < q.1) := by
  suffices h : ∀ m : List (NodeId × α), m.Pairwise (fun p q => p.1 < q.1) →
      (l.foldl (fun m p => btreeInsert p.1 p.2 m) m).Pairwise (fun p q => p.1 < q.1) by
    exact h [] (by simp)
  induction l with
  | nil => intro m hm; simpa using hm
  | cons p rest ih =>
    intro m hm
    exact ih _ (pairwise_btreeInsert hm)

theorem nodup_mapKeys_btreeFromList {α : Type} (l : List (NodeId × α)) :
    (mapKeys (btreeFromList l)).Nodup := by
  have h := pairwise_btreeFromList l
  have h2 : (mapKeys (btreeFromList l)).Pairwise (· < ·) := by
    unfold mapKeys
    exact (List.pairwise_map).mpr h
  exact h2.imp ne_of_lt

theorem btreeFromList_append_single {α : Type} (l : List (NodeId × α)) (p : NodeId × α) :
    btreeFromList (l ++ [p]) = btreeInsert p.1 p.2 (btreeFromList l) := by
  unfold btreeFromList
  rw [List.foldl_append]
  rfl

theorem mapGet_btreeFromList {α : Type} (l : List (NodeId × α)) (k : NodeId) :
    mapGet (btreeFromList l) k = (l.reverse.find? (fun p => p.1 == k)).map Prod.snd := by
  induction l using List.reverseRecOn with
  | nil => simp [btreeFromList, mapGet]
  | append_singleton l p ih =>
    rw [btreeFromList_append_single, mapGet_btreeInsert, List.reverse_append]
    simp only [List.reverse_cons, List.reverse_nil, List.nil_append, List.singleton_append,
      List.find?_cons]
    by_cases hk : k = p.1
    · rw [if_pos hk]
      have : (p.1 == k) = true := by simp [hk]
      rw [this]
      rfl
    · rw [if_neg hk]
      have : (p.1 == k) = false := by simp; exact fun h2 => hk h2.symm
      rw [this, ih]

theorem mem_mapKeys_btreeInsert {α : Type} (m : List (NodeId × α)) (k k2 : NodeId) (v : α) :
    k2 ∈ mapKeys (btreeInsert k v m) ↔ k2 = k ∨ k2 ∈ mapKeys m := by
  rw [← mapGet_isSome_iff, mapGet_btreeInsert]
  by_cases hk : k2 = k
  · simp [hk]
  · simp [hk, mapGet_isSome_iff]

theorem mem_mapKeys_btreeFromList {α : Type} (l : List (NodeId × α)) (k : NodeId) :
    k ∈ mapKeys (btreeFromList l) ↔ k ∈ l.map Prod.fst := by
  induction l using List.reverseRecOn with
  | nil => simp [btreeFromList, mapKeys]
  | append_singleton l p ih =>
    rw [btreeFromList_append_single, mem_mapKeys_btreeInsert, ih]
    simp [or_comm]

omit [LinearOrder M] in
/-- Field-level characterization of `Node::handle_message`. -/
theorem handle_message_spec {C σ : Type}
    (handle : σ → NodeId → M → Bool → σ × List (TargetedMessage M))
    (n : Node C M σ) (sender : NodeId) (m : M) :
    (Node.handle_message handle n sender m).2 = (handle n.consensus sender m n.is_faulty).2 ∧
    (Node.handle_message handle n sender m).1 =
      { n with
          messages_received := n.messages_received ++ [Message.mk sender m],
          messages_produced := n.messages_produced ++
            ((handle n.consensus sender m n.is_faulty).2.map (fun tm => tm.message)),
          consensus := (handle n.consensus sender m n.is_faulty).1 } := by
  unfold Node.handle_message
  rcases h : handle n.consensus sender m n.is_faulty with ⟨c1, outband⟩
  simp

/-- The RNG thread and the queue entries created by `send_messages`, in
recipient order: each recipient whose strategy application yields
`AtInstant dt` contributes the entry `(dt, recipient, message)`; a recipient
whose application yields `Drop` contributes nothing. -/
def resolveSends {ρ : Type} (strat : ρ → DeliverySchedule → ρ × DeliverySchedule)
    (r : ρ) (base : Instant) (message : Message M) :
    List NodeId → ρ × List (QueueEntry M)
  | [] => (r, [])
  | node_id :: rest =>
    match strat r (DeliverySchedule.fromInstant base) with
    | (r1, DeliverySchedule.Drop) => resolveSends strat r1 base message rest
    | (r1, DeliverySchedule.AtInstant dt) =>
      let tail := resolveSends strat r1 base message rest
      (tail.1, QueueEntry.mk dt node_id message :: tail.2)

omit [LinearOrder M] in
theorem sendMessages_eq {C σ ρ : Type} (strat : ρ → DeliverySchedule → ρ × DeliverySchedule)
    (recipients : List NodeId) (th : TestHarness M C σ ρ) (message : Message M)
    (base : Instant) :
    sendMessages strat th recipients message base =
      { th with
          rand := (resolveSends strat th.rand base message recipients).1,
          msg_queue :=
            (resolveSends strat th.rand base message recipients).2.reverse ++ th.msg_queue } := by
  induction recipients generalizing th with
  | nil => simp [sendMessages, resolveSends]
  | cons node_id rest ih =>
    rw [sendMessages, List.foldl_cons]
    simp only [resolveSends]
    rcases hs : strat th.rand (DeliverySchedule.fromInstant base) with ⟨r1, sched⟩
    cases sched with
    | Drop =>
      dsimp only
      have h2 := ih { th with rand := r1 }
      rw [sendMessages] at h2
      rw [h2]
    | AtInstant dt =>
      dsimp only
      have h2 := ih (schedule_message { th with rand := r1 } dt node_id message)
      rw [sendMessages] at h2
      rw [h2]
      simp [schedule_message, queuePush, List.append_assoc]

theorem crank_empty {C σ ρ : Type}
    (handle : σ → NodeId → M → Bool → σ × List (TargetedMessage M))
    (strat : ρ → DeliverySchedule → ρ × DeliverySchedule)
    {th : TestHarness M C σ ρ} (hpop : popMax th.msg_queue = none) :
    crank handle strat th = (Except.error TestRunError.NoMessages, th) := by
  unfold crank
  rw [hpop]

theorem crank_missing {C σ ρ : Type}
    (handle : σ → NodeId → M → Bool → σ × List (TargetedMessage M))
    (strat : ρ → DeliverySchedule → ρ × DeliverySchedule)
    {th : TestHarness M C σ ρ} {e : QueueEntry M} {q1 : List (QueueEntry M)}
    (hpop : popMax th.msg_queue = some (e, q1))
    (hget : mapGet th.nodes_map e.recipient = none) :
    crank handle strat th =
      (Except.error (TestRunError.MissingRecipient e.recipient),
        { th with msg_queue := q1 }) := by
  unfold crank
  rw [hpop]
  dsimp only
  rw [show ({ th with msg_queue := q1 } : TestHarness M C σ ρ).nodes_map = th.nodes_map from rfl,
    hget]

theorem crank_ok {C σ ρ : Type}
    (handle : σ → NodeId → M → Bool → σ × List (TargetedMessage M))
    (strat : ρ → DeliverySchedule → ρ × DeliverySchedule)
    {th : TestHarness M C σ ρ} {e : QueueEntry M} {q1 : List (QueueEntry M)}
    {node : Node C M σ}
    (hpop : popMax th.msg_queue = some (e, q1))
    (hget : mapGet th.nodes_map e.recipient = some node) :
    crank handle strat th =
      (Except.ok (),
        (Node.handle_message handle node e.message.sender e.message.payload).2.foldl
          (fun acc tm =>
            sendMessages strat acc (resolveTarget acc.nodes_map tm.target) tm.message
              e.delivery_time)
          { th with
              msg_queue := q1,
              nodes_map := mapSet th.nodes_map e.recipient
                (Node.handle_message handle node e.message.sender e.message.payload).1 }) := by
  unfold crank
  rw [hpop]
  dsimp only
  rw [show ({ th with msg_queue := q1 } : TestHarness M C σ ρ).nodes_map = th.nodes_map from rfl,
    hget]

omit [LinearOrder M] in
theorem sendFold_frame {C σ ρ : Type}
    (strat : ρ → DeliverySchedule → ρ × DeliverySchedule)
    (l : List (TargetedMessage M)) (dt : Instant) :
    ∀ th : TestHarness M C σ ρ,
      ((l.foldl
          (fun acc tm =>
            sendMessages strat acc (resolveTarget acc.nodes_map tm.target) tm.message dt)
          th).nodes_map = th.nodes_map ∧
       (l.foldl
          (fun acc tm =>
            sendMessages strat acc (resolveTarget acc.nodes_map tm.target) tm.message dt)
          th).start_time = th.start_time ∧
       (l.foldl
          (fun acc tm =>
            sendMessages strat acc (resolveTarget acc.nodes_map tm.target) tm.message dt)
          th).consensus_values = th.consensus_values) := by
  induction l with
  | nil => intro th; simp
  | cons tm rest ih =>
    intro th
    rw [List.foldl_cons]
    obtain ⟨h1, h2, h3⟩ := ih (sendMessages strat th (resolveTarget th.nodes_map tm.target)
      tm.message dt)
    rw [h1, h2, h3, sendMessages_eq]
    exact ⟨rfl, rfl, rfl⟩

/-- Agreement of two harness states on the components `crank` reads and
writes: the node table, the queue, and the RNG state (`start_time` and
`consensus_values` are never consulted by `crank`). -/
def coreAgrees {C σ ρ : Type} (th1 th2 : TestHarness M C σ ρ) : Prop :=
  th1.nodes_map = th2.nodes_map ∧ th1.msg_queue = th2.msg_queue ∧ th1.rand = th2.rand

omit [LinearOrder M] in
theorem sendFold_congr {C σ ρ : Type}
    (strat : ρ → DeliverySchedule → ρ × DeliverySchedule)
    (l : List (TargetedMessage M)) (dt : Instant) :
    ∀ th1 th2 : TestHarness M C σ ρ, coreAgrees th1 th2 →
      coreAgrees
        (l.foldl
          (fun acc tm =>
            sendMessages strat acc (resolveTarget acc.nodes_map tm.target) tm.message dt)
          th1)
        (l.foldl
          (fun acc tm =>
            sendMessages strat acc (resolveTarget acc.nodes_map tm.target) tm.message dt)
          th2) := by
  induction l with
  | nil => intro th1 th2 h; simpa using h
  | cons tm rest ih =>
    intro th1 th2 h
    obtain ⟨hn, hq, hr⟩ := h
    rw [List.foldl_cons, List.foldl_cons]
    apply ih
    rw [sendMessages_eq, sendMessages_eq, hn, hq, hr]
    exact ⟨rfl, rfl, rfl⟩

theorem crank_congr {C σ ρ : Type}
    (handle : σ → NodeId → M → Bool → σ × List (TargetedMessage M))
    (strat : ρ → DeliverySchedule → ρ × DeliverySchedule)
    {th1 th2 : TestHarness M C σ ρ} (h : coreAgrees th1 th2) :
    (crank handle strat th1).1 = (crank handle strat th2).1 ∧
      coreAgrees (crank handle strat th1).2 (crank handle strat th2).2 := by
  obtain ⟨hn, hq, hr⟩ := h
  rcases hpop : popMax th1.msg_queue with _ | ⟨e, q1⟩
  · have hpop2 : popMax th2.msg_queue = none := by rw [← hq]; exact hpop
    rw [crank_empty handle strat hpop, crank_empty handle strat hpop2]
    exact ⟨rfl, hn, hq, hr⟩
  · have hpop2 : popMax th2.msg_queue = some (e, q1) := by rw [← hq]; exact hpop
    rcases hget : mapGet th1.nodes_map e.recipient with _ | node
    · have hget2 : mapGet th2.nodes_map e.recipient = none := by rw [← hn]; exact hget
      rw [crank_missing handle strat hpop hget, crank_missing handle strat hpop2 hget2]
      exact ⟨rfl, hn, rfl, hr⟩
    · have hget2 : mapGet th2.nodes_map e.recipient = some node := by rw [← hn]; exact hget
      rw [crank_ok handle strat hpop hget, crank_ok handle strat hpop2 hget2]
      refine ⟨rfl, ?_⟩
      apply sendFold_congr
      rw [hn, hr]
      exact ⟨rfl, rfl, rfl⟩

theorem deliveries_congr {C σ ρ : Type}
    (handle : σ → NodeId → M → Bool → σ × List (TargetedMessage M))
    (strat : ρ → DeliverySchedule → ρ × DeliverySchedule) :
    ∀ (n : Nat) (th1 th2 : TestHarness M C σ ρ), coreAgrees th1 th2 →
      deliveries handle strat n th1 = deliveries handle strat n th2 := by
  intro n
  induction n with
  | zero => intro th1 th2 h; rfl
  | succ n ih =>
    intro th1 th2 h
    obtain ⟨hfst, hcore⟩ := crank_congr handle strat h
    obtain ⟨hn, hq, hr⟩ := h
    rw [deliveries, deliveries]
    rcases hc1 : crank handle strat th1 with ⟨res1, st1⟩
    rcases hc2 : crank handle strat th2 with ⟨res2, st2⟩
    have hres : res1 = res2 := by rw [hc1, hc2] at hfst; exact hfst
    have hst : coreAgrees st1 st2 := by rw [hc1, hc2] at hcore; exact hcore
    subst hres
    cases res1 with
    | ok u =>
      rw [hq]
      rcases popMax th2.msg_queue with _ | ⟨e, q1⟩
      · dsimp only
        exact ih st1 st2 hst
      · dsimp only
        rw [ih st1 st2 hst]
    | error err =>
      dsimp only
      exact ih st1 st2 hst

theorem crank_keys {C σ ρ : Type}
    (handle : σ → NodeId → M → Bool → σ × List (TargetedMessage M))
    (strat : ρ → DeliverySchedule → ρ × DeliverySchedule)
    (th : TestHarness M C σ ρ) :
    mapKeys (crank handle strat th).2.nodes_map = mapKeys th.nodes_map := by
  rcases hpop : popMax th.msg_queue with _ | ⟨e, q1⟩
  · rw [crank_empty handle strat hpop]
  · rcases hget : mapGet th.nodes_map e.recipient with _ | node
    · rw [crank_missing handle strat hpop hget]
    · rw [crank_ok handle strat hpop hget]
      rw [(sendFold_frame strat _ e.delivery_time _).1]
      exact mapKeys_mapSet _ _ _

theorem crank_node_logs {C σ ρ : Type}
    (handle : σ → NodeId → M → Bool → σ × List (TargetedMessage M))
    (strat : ρ → DeliverySchedule → ρ × DeliverySchedule)
    (th : TestHarness M C σ ρ) (nid : NodeId) :
    mapGet (crank handle strat th).2.nodes_map nid = mapGet th.nodes_map nid ∨
    ∃ e q1 node, popMax th.msg_queue = some (e, q1) ∧ nid = e.recipient ∧
      mapGet th.nodes_map nid = some node ∧
      mapGet (crank handle strat th).2.nodes_map nid =
        some (Node.handle_message handle node e.message.sender e.message.payload).1 := by
  rcases hpop : popMax th.msg_queue with _ | ⟨e, q1⟩
  · left
    rw [crank_empty handle strat hpop]
  · rcases hget : mapGet th.nodes_map e.recipient with _ | node
    · left
      rw [crank_missing handle strat hpop hget]
    · by_cases hnid : nid = e.recipient
      · right
        subst hnid
        refine ⟨e, q1, node, rfl, rfl, hget, ?_⟩
        rw [crank_ok handle strat hpop hget, (sendFold_frame strat _ e.delivery_time _).1]
        exact mapGet_mapSet_some hget
      · left
        rw [crank_ok handle strat hpop hget, (sendFold_frame strat _ e.delivery_time _).1]
        exact mapGet_mapSet_ne hnid

omit [LinearOrder M] in
theorem resolveSends_all_at {ρ : Type} (strat : ρ → DeliverySchedule → ρ × DeliverySchedule)
    (hstrat : ∀ (r : ρ) (t : Instant),
      (strat r (DeliverySchedule.AtInstant t)).2 = DeliverySchedule.AtInstant (t + 1))
    (message : Message M) (base : Instant) :
    ∀ (rs : List NodeId) (r : ρ),
      (resolveSends strat r base message rs).2 =
        rs.map (fun nid => QueueEntry.mk (base + 1) nid message) := by
  intro rs
  induction rs with
  | nil => intro r; rfl
  | cons nid rest ih =>
    intro r
    rw [resolveSends]
    rcases hs : strat r (DeliverySchedule.fromInstant base) with ⟨r1, sched⟩
    have hsched : sched = DeliverySchedule.AtInstant (base + 1) := by
      have := hstrat r base
      rw [show DeliverySchedule.fromInstant base = DeliverySchedule.AtInstant base from rfl] at hs
      rw [hs] at this
      exact this
    subst hsched
    dsimp only
    rw [List.map_cons, ih r1]

/-- Single-node test fixture (`Node::new(NodeId(1), false, NoOpConsensus())`). -/
def nodeOne : Node Nat Nat Unit := Node.new 1 false ()

/-- Harness with the single node and an empty queue. -/
def harnessOne : TestHarness Nat Nat Unit Unit := TestHarness.new [nodeOne] 0 [] ()

/-- The `messages_are_delivered_in_order` fixture: payload `i` scheduled at
delivery time `10 - i` for `i = 0, …, 9`. -/
def harnessTen : TestHarness Nat Nat Unit Unit :=
  (List.range 10).foldl (fun th i => schedule_message th (10 - i) 1 (Message.mk 1 i)) harnessOne

/-- Queue entry with delivery time 1. -/
def qeA : QueueEntry Nat := QueueEntry.mk 1 1 (Message.mk 1 0)

/-- Queue entry with delivery time 2. -/
def qeB : QueueEntry Nat := QueueEntry.mk 2 1 (Message.mk 1 0)

/-- Harness over nodes `{1, 2}` with one entry addressed to the absent node 3. -/
def harnessMissing : TestHarness Nat Nat Unit Unit :=
  schedule_message
    (TestHarness.new [Node.new 1 false (), Node.new 2 false ()] 0 [] ())
    5 3 (Message.mk 1 7)

/-- Strategy that drops every delivery. -/
def alwaysDropStrat {ρ : Type} : ρ → DeliverySchedule → ρ × DeliverySchedule :=
  fun r _ => (r, DeliverySchedule.Drop)

/-- Consensus instance that answers every message with one broadcast. -/
def echoAllHandle : Unit → NodeId → Nat → Bool → Unit × List (TargetedMessage Nat) :=
  fun s _ p _ => (s, [TargetedMessage.mk (Message.mk 9 p) Target.All])

/-- Harness over nodes `{1, 2, 3}` with one entry addressed to node 2 at time 5. -/
def harnessThree : TestHarness Nat Nat Unit Unit :=
  schedule_message
    (TestHarness.new [Node.new 1 false (), Node.new 2 false (), Node.new 3 false ()] 0 [] ())
    5 2 (Message.mk 1 7)

/-- Counterexample to claim C1 as stated: on the two-entry queue
`[qeA, qeB]` with `qeA` strictly below `qeB` in the `QueueEntry` order
(delivery times 1 and 2), `Queue::pop` returns `qeB` — the entry with the
GREATEST order, not the smallest — because Rust's `BinaryHeap` is a max-heap
and `impl Ord for QueueEntry` is not reversed. -/
theorem claim_C1_counterexample :
    popMax [qeA, qeB] = some (qeB, [qeA]) ∧
    qeCmp qeA qeB = Ordering.lt ∧
    qeA.delivery_time = 1 ∧ qeB.delivery_time = 2 := by decide

/-- Claim C1 (amended): for every non-empty queue, `Queue::pop` removes and
returns a MAXIMAL entry under the `QueueEntry` total order (`delivery_time`,
then `recipient`, then payload, each ascending); the remaining queue is the
original minus that entry, and consequently successive pops — hence
successive crank deliveries when no new messages are scheduled — have
non-increasing `delivery_time`. -/
theorem claim_C1_pop_returns_greatest (q : List (QueueEntry M)) (hne : q ≠ []) :
    ∃ e q1, popMax q = some (e, q1) ∧
      (e :: q1).Perm q ∧
      (∀ x ∈ q1, keyOf x ≤ keyOf e) ∧
      (∀ e2 q2, popMax q1 = some (e2, q2) → e2.delivery_time ≤ e.delivery_time) := by
  rcases hp : popMax q with _ | ⟨e, q1⟩
  · exact absurd (popMax_eq_none.mp hp) hne
  · refine ⟨e, q1, rfl, popMax_perm hp, popMax_le hp, ?_⟩
    intro e2 q2 hp2
    have he2 : e2 ∈ q1 := (popMax_perm hp2).mem_iff.mp (List.mem_cons_self _ _)
    exact keyOf_fst_le (popMax_le hp e2 he2)

/-- Witness for the amended claim C1 on the concrete queue `[qeA, qeB]`. -/
theorem claim_C1_pop_returns_greatest_witness :
    ∃ e q1, popMax [qeA, qeB] = some (e, q1) ∧
      (e :: q1).Perm [qeA, qeB] ∧
      (∀ x ∈ q1, keyOf x ≤ keyOf e) ∧
      (∀ e2 q2, popMax q1 = some (e2, q2) → e2.delivery_time ≤ e.delivery_time) :=
  claim_C1_pop_returns_greatest [qeA, qeB] (by decide)

/-- Claim C2: one non-faulty node with the no-op consensus instance; payloads
`0, …, 9` scheduled at delivery times `10, 9, …, 1`; ten `crank` calls
deliver the payloads in ascending order `0, …, 9` (the node's received log
after ten cranks, in arrival order), and the eleventh `crank` returns
`NoMessages`. -/
theorem claim_C2_messages_delivered_in_order :
    (deliveries noOpHandle smallDelay 10 harnessTen).map (fun p => p.2.payload) =
      [0, 1, 2, 3, 4, 5, 6, 7, 8, 9] ∧
    ((crankSteps noOpHandle smallDelay 10 harnessTen).nodes_map.map
        (fun p => p.2.messages_received.map (fun msg => msg.payload))) =
      [[0, 1, 2, 3, 4, 5, 6, 7, 8, 9]] ∧
    (crank noOpHandle smallDelay (crankSteps noOpHandle smallDelay 10 harnessTen)).1 =
      Except.error TestRunError.NoMessages := by
  refine ⟨by decide, by decide, rfl⟩

omit [LinearOrder M] in
/-- Claim C3: `Node::handle_message` appends exactly `(sender, payload)` to
`messages_received`, calls the consensus instance with the node's fixed
`is_faulty` flag, appends the message part of each returned
`TargetedMessage` to `messages_produced` in order, and returns the
instance's output unchanged; no other field changes. -/
theorem claim_C3_handle_message_spec {C σ : Type}
    (handle : σ → NodeId → M → Bool → σ × List (TargetedMessage M))
    (n : Node C M σ) (sender : NodeId) (m : M) :
    (Node.handle_message handle n sender m).1.messages_received =
      n.messages_received ++ [Message.mk sender m] ∧
    (Node.handle_message handle n sender m).2 =
      (handle n.consensus sender m n.is_faulty).2 ∧
    (Node.handle_message handle n sender m).1.messages_produced =
      n.messages_produced ++
        ((handle n.consensus sender m n.is_faulty).2.map (fun tm => tm.message)) ∧
    (Node.handle_message handle n sender m).1.consensus =
      (handle n.consensus sender m n.is_faulty).1 ∧
    (Node.handle_message handle n sender m).1.id = n.id ∧
    (Node.handle_message handle n sender m).1.is_faulty = n.is_faulty ∧
    (Node.handle_message handle n sender m).1.finalized_values = n.finalized_values := by
  obtain ⟨h1, h2⟩ := handle_message_spec handle n sender m
  rw [h1, h2]
  exact ⟨rfl, rfl, rfl, rfl, rfl, rfl, rfl⟩

/-- Claim C4: `crank` on a harness whose queue is empty returns
`NoMessages` and leaves the whole state — queue included — unchanged. -/
theorem claim_C4_empty_queue {C σ ρ : Type}
    (handle : σ → NodeId → M → Bool → σ × List (TargetedMessage M))
    (strat : ρ → DeliverySchedule → ρ × DeliverySchedule)
    (th : TestHarness M C σ ρ) (h : th.msg_queue = []) :
    crank handle strat th = (Except.error TestRunError.NoMessages, th) := by
  apply crank_empty
  rw [h]
  rfl

/-- Witness for claim C4 on the concrete empty harness. -/
theorem claim_C4_empty_queue_witness :
    crank noOpHandle smallDelay harnessOne =
      (Except.error TestRunError.NoMessages, harnessOne) :=
  claim_C4_empty_queue noOpHandle smallDelay harnessOne rfl

/-- Claim C5: when the popped entry names a recipient absent from the node
table, `crank` returns `MissingRecipient` for exactly that id; the entry is
consumed (the new queue is the old one minus exactly that entry) and nothing
else in the state changes. -/
theorem claim_C5_missing_recipient {C σ ρ : Type}
    (handle : σ → NodeId → M → Bool → σ × List (TargetedMessage M))
    (strat : ρ → DeliverySchedule → ρ × DeliverySchedule)
    {th : TestHarness M C σ ρ} {e : QueueEntry M} {q1 : List (QueueEntry M)}
    (hpop : popMax th.msg_queue = some (e, q1))
    (hmiss : mapGet th.nodes_map e.recipient = none) :
    crank handle strat th =
      (Except.error (TestRunError.MissingRecipient e.recipient),
        { th with msg_queue := q1 }) ∧
    (e :: q1).Perm th.msg_queue :=
  ⟨crank_missing handle strat hpop hmiss, popMax_perm hpop⟩

/-- Witness for claim C5: nodes `{1, 2}`, one entry addressed to node 3. -/
theorem claim_C5_missing_recipient_witness :
    crank noOpHandle smallDelay harnessMissing =
      (Except.error (TestRunError.MissingRecipient 3),
        { harnessMissing with msg_queue := [] }) ∧
    ([QueueEntry.mk 5 3 (Message.mk 1 7)] : List (QueueEntry Nat)).Perm
      harnessMissing.msg_queue :=
  @claim_C5_missing_recipient Nat _ Nat Unit Unit noOpHandle smallDelay harnessMissing
    (QueueEntry.mk 5 3 (Message.mk 1 7)) [] (by decide) (by decide)

/-- Claim C6: inside `crank`, `SingleNode(id)` resolves to the singleton and
`All` resolves to the full current key set of the node table, and each
resolved recipient's delivery is the strategy applied to
`AtInstant(base_delivery_time)` of the popped entry; in particular, with 3
nodes and a strategy that always adds one tick and never drops, dispatching
a message whose outbound target is `All` at base time `T` pushes exactly 3
new queue entries, one per node, each with delivery time `T + 1`. -/
theorem claim_C6_target_resolution {C σ ρ : Type}
    (handle : σ → NodeId → M → Bool → σ × List (TargetedMessage M))
    (strat : ρ → DeliverySchedule → ρ × DeliverySchedule)
    {th : TestHarness M C σ ρ} {e : QueueEntry M} {q1 : List (QueueEntry M)}
    {node : Node C M σ} {a b c : NodeId} {m1 : Message M}
    (hkeys : mapKeys th.nodes_map = [a, b, c])
    (hpop : popMax th.msg_queue = some (e, q1))
    (hget : mapGet th.nodes_map e.recipient = some node)
    (hout : (handle node.consensus e.message.sender e.message.payload node.is_faulty).2 =
      [TargetedMessage.mk m1 Target.All])
    (hstrat : ∀ (r : ρ) (t : Instant),
      (strat r (DeliverySchedule.AtInstant t)).2 = DeliverySchedule.AtInstant (t + 1)) :
    (∀ (mm : List (NodeId × Node C M σ)) (id2 : NodeId),
        resolveTarget mm (Target.SingleNode id2) = [id2] ∧
        resolveTarget mm Target.All = mapKeys mm) ∧
    (crank handle strat th).1 = Except.ok () ∧
    ((crank handle strat th).2.msg_queue).Perm
      (QueueEntry.mk (e.delivery_time + 1) a m1 ::
        QueueEntry.mk (e.delivery_time + 1) b m1 ::
        QueueEntry.mk (e.delivery_time + 1) c m1 :: q1) := by
  refine ⟨fun mm id2 => ⟨rfl, rfl⟩, ?_, ?_⟩
  · rw [crank_ok handle strat hpop hget]
  · rw [crank_ok handle strat hpop hget]
    rw [(handle_message_spec handle node e.message.sender e.message.payload).1, hout]
    rw [List.foldl_cons, List.foldl_nil]
    dsimp only
    rw [show resolveTarget
        (mapSet th.nodes_map e.recipient
          (Node.handle_message handle node e.message.sender e.message.payload).1) Target.All =
        mapKeys (mapSet th.nodes_map e.recipient
          (Node.handle_message handle node e.message.sender e.message.payload).1) from rfl]
    rw [mapKeys_mapSet, hkeys, sendMessages_eq]
    dsimp only
    rw [resolveSends_all_at strat hstrat m1 e.delivery_time [a, b, c]]
    exact (List.reverse_perm _).append_right q1

/-- Witness for claim C6: nodes `{1, 2, 3}`, broadcast-producing consensus,
the `SmallDelay` (+1 tick, never drop) strategy, base time 5. -/
theorem claim_C6_target_resolution_witness :
    (∀ (mm : List (NodeId × Node Nat Nat Unit)) (id2 : NodeId),
        resolveTarget mm (Target.SingleNode id2) = [id2] ∧
        resolveTarget mm Target.All = mapKeys mm) ∧
    (crank echoAllHandle smallDelay harnessThree).1 = Except.ok () ∧
    ((crank echoAllHandle smallDelay harnessThree).2.msg_queue).Perm
      (QueueEntry.mk 6 1 (Message.mk 9 7) ::
        QueueEntry.mk 6 2 (Message.mk 9 7) ::
        QueueEntry.mk 6 3 (Message.mk 9 7) :: []) :=
  @claim_C6_target_resolution Nat _ Nat Unit Unit echoAllHandle smallDelay harnessThree
    (QueueEntry.mk 5 2 (Message.mk 1 7)) [] (Node.new 2 false ()) 1 2 3 (Message.mk 9 7)
    (by decide) (by decide) (by decide) rfl (fun r t => rfl)

/-- Claim C7: a delivery whose schedule resolves to `Drop` is never pushed
onto the queue, and a node's `messages_received` log grows only by the
message of an entry popped from the queue — hence a dropped delivery never
appears in any node's `messages_received`.  Stated as: (1) `send_messages`
adds to the queue exactly the entries of `resolveSends` (which records only
`AtInstant` outcomes); (2) a recipient whose strategy application yields
`Drop` contributes nothing to `resolveSends`; (3) over any `crank`, a node's
received log either is unchanged or gains exactly the popped entry's
message, and only at that entry's recipient. -/
theorem claim_C7_drop_correctness {C σ ρ : Type}
    (handle : σ → NodeId → M → Bool → σ × List (TargetedMessage M))
    (strat : ρ → DeliverySchedule → ρ × DeliverySchedule) :
    (∀ (th : TestHarness M C σ ρ) (recips : List NodeId) (msg : Message M) (base : Instant),
      sendMessages strat th recips msg base =
        { th with
            rand := (resolveSends strat th.rand base msg recips).1,
            msg_queue := (resolveSends strat th.rand base msg recips).2.reverse ++
              th.msg_queue }) ∧
    (∀ (r : ρ) (base : Instant) (msg : Message M) (nid : NodeId) (rest : List NodeId),
      (strat r (DeliverySchedule.AtInstant base)).2 = DeliverySchedule.Drop →
      resolveSends strat r base msg (nid :: rest) =
        resolveSends strat (strat r (DeliverySchedule.AtInstant base)).1 base msg rest) ∧
    (∀ (th : TestHarness M C σ ρ) (nid : NodeId) (node : Node C M σ),
      mapGet th.nodes_map nid = some node →
      ∃ node1, mapGet (crank handle strat th).2.nodes_map nid = some node1 ∧
        (node1.messages_received = node.messages_received ∨
          ∃ e q1, popMax th.msg_queue = some (e, q1) ∧ nid = e.recipient ∧
            node1.messages_received = node.messages_received ++ [e.message])) := by
  refine ⟨fun th recips msg base => sendMessages_eq strat recips th msg base, ?_, ?_⟩
  · intro r base msg nid rest hdrop
    rw [resolveSends]
    rcases hs : strat r (DeliverySchedule.fromInstant base) with ⟨r1, sched⟩
    have hsched : sched = DeliverySchedule.Drop := by
      have h2 := hdrop
      rw [show DeliverySchedule.AtInstant base = DeliverySchedule.fromInstant base from rfl,
        hs] at h2
      exact h2
    subst hsched
    dsimp only
    rw [show DeliverySchedule.AtInstant base = DeliverySchedule.fromInstant base from rfl, hs]
  · intro th nid node hget
    rcases crank_node_logs handle strat th nid with h | ⟨e, q1, node0, hpop, hnid, hget0, hmap⟩
    · exact ⟨node, by rw [h]; exact hget, Or.inl rfl⟩
    · have hn0 : node0 = node := Option.some.inj (hget0.symm.trans hget)
      subst hn0
      refine ⟨_, hmap, Or.inr ⟨e, q1, hpop, hnid, ?_⟩⟩
      rw [(handle_message_spec handle node0 e.message.sender e.message.payload).2]

/-- Witness for claim C7: under the always-drop strategy a recipient
contributes no queue entry. -/
theorem claim_C7_drop_correctness_witness :
    resolveSends alwaysDropStrat () 5 (Message.mk 1 (2 : Nat)) [1] = ((), []) := by
  have h := (@claim_C7_drop_correctness Nat _ Nat Unit Unit noOpHandle
    alwaysDropStrat).2.1 () 5 (Message.mk 1 (2 : Nat)) 1 [] rfl
  exact h.trans rfl

/-- Claim C8: two harness runs whose initial node tables, queue contents and
RNG states are identical (start time and the consensus-value list may even
differ — `crank` never reads them) produce identical sequences of
`(recipient, message)` deliveries over any number of cranks. -/
theorem claim_C8_replay_determinism {C σ ρ : Type}
    (handle : σ → NodeId → M → Bool → σ × List (TargetedMessage M))
    (strat : ρ → DeliverySchedule → ρ × DeliverySchedule)
    (n : Nat) (th1 th2 : TestHarness M C σ ρ)
    (hnodes : th1.nodes_map = th2.nodes_map)
    (hqueue : th1.msg_queue = th2.msg_queue)
    (hrand : th1.rand = th2.rand) :
    deliveries handle strat n th1 = deliveries handle strat n th2 :=
  deliveries_congr handle strat n th1 th2 ⟨hnodes, hqueue, hrand⟩

/-- Harness equal to `harnessTen` except for fields `crank` never reads. -/
def harnessTenAlt : TestHarness Nat Nat Unit Unit :=
  { harnessTen with start_time := 99, consensus_values := [42] }

/-- Witness for claim C8 on the ten-message fixture. -/
theorem claim_C8_replay_determinism_witness :
    deliveries noOpHandle smallDelay 11 harnessTen =
      deliveries noOpHandle smallDelay 11 harnessTenAlt :=
  claim_C8_replay_determinism noOpHandle smallDelay 11 harnessTen harnessTenAlt rfl rfl rfl

/-- Claim C9: `schedule_message` never touches the node table, `crank`
preserves the key set of the node table, and across a `crank` every node's
three logs are only ever extended at the end (the old log is an initial
segment of the new one). -/
theorem claim_C9_append_only_logs {C σ ρ : Type}
    (handle : σ → NodeId → M → Bool → σ × List (TargetedMessage M))
    (strat : ρ → DeliverySchedule → ρ × DeliverySchedule)
    (th : TestHarness M C σ ρ) :
    (∀ (dt : Instant) (rcp : NodeId) (msg : Message M),
      (schedule_message th dt rcp msg).nodes_map = th.nodes_map) ∧
    mapKeys (crank handle strat th).2.nodes_map = mapKeys th.nodes_map ∧
    (∀ (nid : NodeId) (node : Node C M σ), mapGet th.nodes_map nid = some node →
      ∃ node1, mapGet (crank handle strat th).2.nodes_map nid = some node1 ∧
        (∃ s1, node1.finalized_values = node.finalized_values ++ s1) ∧
        (∃ s2, node1.messages_received = node.messages_received ++ s2) ∧
        (∃ s3, node1.messages_produced = node.messages_produced ++ s3)) := by
  refine ⟨fun dt rcp msg => rfl, crank_keys handle strat th, ?_⟩
  intro nid node hget
  rcases crank_node_logs handle strat th nid with h | ⟨e, q1, node0, hpop, hnid, hget0, hmap⟩
  · exact ⟨node, by rw [h]; exact hget, ⟨[], by simp⟩, ⟨[], by simp⟩, ⟨[], by simp⟩⟩
  · have hn0 : node0 = node := Option.some.inj (hget0.symm.trans hget)
    subst hn0
    refine ⟨_, hmap, ?_, ?_, ?_⟩
    · refine ⟨[], ?_⟩
      rw [(handle_message_spec handle node0 e.message.sender e.message.payload).2]
      simp
    · refine ⟨[Message.mk e.message.sender e.message.payload], ?_⟩
      rw [(handle_message_spec handle node0 e.message.sender e.message.payload).2]
    · refine ⟨(handle node0.consensus e.message.sender e.message.payload
        node0.is_faulty).2.map (fun tm => tm.message), ?_⟩
      rw [(handle_message_spec handle node0 e.message.sender e.message.payload).2]

/-- Witness for claim C9 at node 1 of the ten-message fixture. -/
theorem claim_C9_append_only_logs_witness :
    ∃ node1, mapGet (crank noOpHandle smallDelay harnessTen).2.nodes_map 1 = some node1 ∧
      (∃ s1, node1.finalized_values = nodeOne.finalized_values ++ s1) ∧
      (∃ s2, node1.messages_received = nodeOne.messages_received ++ s2) ∧
      (∃ s3, node1.messages_produced = nodeOne.messages_produced ++ s3) :=
  (claim_C9_append_only_logs noOpHandle smallDelay harnessTen).2.2 1 nodeOne (by decide)

omit [LinearOrder M] in
/-- Claim C10: `TestHarness::new` given duplicate `NodeId`s reports no
error; the node table keeps, for each id, exactly the LAST node with that id
in iteration order (earlier ones are silently discarded), the key set has no
duplicates, and an id is present exactly when some input node carries it. -/
theorem claim_C10_duplicate_node_ids {C σ ρ : Type} (nodes : List (Node C M σ))
    (start_time : Nat) (cv : List C) (r : ρ) (id2 : NodeId) :
    mapGet (TestHarness.new nodes start_time cv r).nodes_map id2 =
      nodes.reverse.find? (fun n => n.id == id2) ∧
    (mapKeys (TestHarness.new nodes start_time cv r).nodes_map).Nodup ∧
    (id2 ∈ mapKeys (TestHarness.new nodes start_time cv r).nodes_map ↔
      id2 ∈ nodes.map (fun n => n.id)) := by
  refine ⟨?_, nodup_mapKeys_btreeFromList _, ?_⟩
  · show mapGet (btreeFromList (nodes.map fun n => (n.id, n))) id2 = _
    rw [mapGet_btreeFromList, ← List.map_reverse, List.find?_map, Option.map_map]
    show (nodes.reverse.find? (fun n => n.id == id2)).map (fun n => n) = _
    simp
  · show id2 ∈ mapKeys (btreeFromList (nodes.map fun n => (n.id, n))) ↔ _
    rw [mem_mapKeys_btreeFromList, List.map_map]
    exact Iff.rfl
